import Mathlib

/-
Verification of the UBC Events feed pipeline (Feed.jsx), the onboarding
preference flow, the saved-events page, and the preference/save store.

The JavaScript source is shallowly embedded: events are records, JS strings
are Lean `String`s manipulated through their character lists (so that every
definition is executable by the kernel), JS's stable `Array.prototype.sort`
with a consistent comparator is modelled by a stable insertion sort, and a
JS object used as a counter map (string keys, insertion-ordered iteration
as produced by `Object.entries`) is modelled by an association list ordered
by first insertion.
-/

/- ===== generic string helpers (character-list level) ===== -/

/-- Lower-case a character list (models `String.prototype.toLowerCase` on the
ASCII range, which is all the code relies on). -/
def lower (l : List Char) : List Char := l.map Char.toLower

/-- Trim leading and trailing whitespace (models `String.prototype.trim`). -/
def trimData (l : List Char) : List Char :=
  ((l.dropWhile Char.isWhitespace).reverse.dropWhile Char.isWhitespace).reverse

/-- Normalization helper from Feed.jsx line 39:
`const norm = s => String(s || '').toLowerCase().trim()`. -/
def norm (s : String) : String := ⟨trimData (lower s.data)⟩

/-- Does `n` occur as a prefix of `h`? (helper for substring search). -/
def startsWithL : List Char → List Char → Bool
  | [], _ => true
  | _ :: _, [] => false
  | a :: n, b :: h => a == b && startsWithL n h

/-- Does `n` occur as a contiguous substring of `h`?
Models `String.prototype.includes`. -/
def substrIn (n : List Char) : List Char → Bool
  | [] => startsWithL n []
  | c :: t => startsWithL n (c :: t) || substrIn n t

/-- Tokenizer accumulator: splits on whitespace runs and drops empty pieces,
modelling `query.split(/\s+/).filter(Boolean)`. `cur` is the reversed
current token. -/
def tokenizeAux : List Char → List Char → List (List Char)
  | [], cur => if cur.isEmpty then [] else [cur.reverse]
  | c :: cs, cur =>
    if c.isWhitespace then
      if cur.isEmpty then tokenizeAux cs [] else cur.reverse :: tokenizeAux cs []
    else tokenizeAux cs (c :: cur)

/-- Whitespace tokenization of a character list. -/
def tokenizeL (l : List Char) : List (List Char) := tokenizeAux l []

/-- Join strings with a single space separator
(models `Array.prototype.join(' ')`). -/
def joinSp : List String → List Char
  | [] => []
  | [s] => s.data
  | s :: rest => s.data ++ ' ' :: joinSp rest

/-- Index of the first occurrence of `k` (length of the list if absent). -/
def firstIdx (k : String) : List String → Nat
  | [] => 0
  | x :: xs => if x = k then 0 else firstIdx k xs + 1

/- ===== stable sort (models JS stable Array.prototype.sort) ===== -/

/-- Insert `x` into `l` before the first element `y` with `le x y`. -/
def insertLe (le : α → α → Bool) (x : α) : List α → List α
  | [] => [x]
  | y :: ys => if le x y then x :: y :: ys else y :: insertLe le x ys

/-- Stable insertion sort. For a consistent comparator this computes the
same list as JS `Array.prototype.sort` (stable since ES2019). -/
def sortLe (le : α → α → Bool) : List α → List α
  | [] => []
  | x :: xs => insertLe le x (sortLe le xs)

/- ===== counter map built by a JS object (insertion-ordered) ===== -/

/-- One step of `counts[n] = (counts[n] || 0) + 1` on an association list. -/
def bump (k : String) : List (String × Nat) → List (String × Nat)
  | [] => [(k, 1)]
  | p :: rest => if p.1 = k then (p.1, p.2 + 1) :: rest else p :: bump k rest

/-- The counter object after the whole loop, as `Object.entries` returns it:
entries in first-insertion order with total counts. -/
def buildCounts (seq : List String) : List (String × Nat) :=
  seq.foldl (fun acc k => bump k acc) []

/-- Value of key `k` in an association list (0 when absent). -/
def lookupC (k : String) : List (String × Nat) → Nat
  | [] => 0
  | p :: rest => if p.1 = k then p.2 else lookupC k rest

/-- First-occurrence deduplication with an explicit `seen` accumulator. -/
def dedupSeen (seen : List String) : List String → List String
  | [] => []
  | k :: ks => if k ∈ seen then dedupSeen seen ks else k :: dedupSeen (k :: seen) ks

/- ===== data model ===== -/

/-- The `start` field of an event: absent, present but unparseable as a date,
or a parsed timestamp (milliseconds, as `Date.getTime()` yields). -/
inductive StartVal where
  | absent
  | invalid
  | time (t : Int)
deriving DecidableEq, Repr

/-- An event record as consumed by the pipeline. Optional text fields are
`Option String` (JS `undefined` being `none`); `tags` defaults to `[]`
exactly as `e.tags || []` does. -/
structure Event where
  id : String
  title : Option String := none
  description : Option String := none
  organizer : Option String := none
  location : Option String := none
  tags : List String := []
  level : Option String := none
  faculty : Option String := none
  start : StartVal := .absent
  isCustom : Bool := false
deriving DecidableEq, Repr

/-- User preferences as saved by Onboarding. -/
structure Prefs where
  name : String
  faculty : String
  interests : List String
deriving DecidableEq, Repr

inductive ViewMode where
  | all
  | personalized
deriving DecidableEq, Repr

inductive SortMode where
  | trending
  | date
deriving DecidableEq, Repr

/- ===== Feed pipeline (src/pages/Feed.jsx) ===== -/

/-- Feed.jsx line 20: the five tags allowed in the popular-tags cloud. -/
def ALLOWED_TAGS : List String :=
  ["hackathon", "web dev", "product management", "data science", "ai"]

def TAG_CLOUD_LIMIT : Nat := 5

/-- The per-event predicate of the personalized base pool (Feed.jsx 82-86):
faculty absent / `All` / equal to the user's faculty, and some event tag is
literally contained (strict `includes`) in the user's interests. -/
def basePred (p : Prefs) (e : Event) : Bool :=
  (decide (e.faculty = none) || decide (e.faculty = some "All")
    || decide (e.faculty = some p.faculty))
  && e.tags.any (fun t => p.interests.any (fun i => decide (i = t)))

/-- Feed.jsx 79-89: the base pool. -/
def basePool (events : List Event) (prefs : Option Prefs) (mode : ViewMode) :
    List Event :=
  if events.isEmpty then []
  else
    match mode, prefs with
    | .personalized, some p => events.filter (basePred p)
    | _, _ => events

/-- Modelled from the spec's words for claim C1 only (refinement comparison):
like `basePool` but with the event's tag set compared to the interest set
after case/whitespace normalization, as the claim asserts. -/
def basePoolSpec (events : List Event) (prefs : Option Prefs) (mode : ViewMode) :
    List Event :=
  if events.isEmpty then []
  else
    match mode, prefs with
    | .personalized, some p =>
      events.filter (fun e =>
        (decide (e.faculty = none) || decide (e.faculty = some "All")
          || decide (e.faculty = some p.faculty))
        && e.tags.any (fun t => p.interests.any (fun i => decide (norm i = norm t))))
    | _, _ => events

/-- The sequence of normalized, allow-listed tag occurrences of the pool, in
the order the Feed.jsx 95-100 loop visits them. -/
def tagCloudSeq (pool : List Event) : List String :=
  ((pool.map (fun e => e.tags)).flatten.map norm).filter
    (fun n => (ALLOWED_TAGS.map norm).any (fun m => decide (m = n)))

/-- One tag-cloud entry `{ tag, count }`. -/
structure CloudEntry where
  tag : String
  count : Nat
deriving DecidableEq, Repr

/-- Descending-count comparator used by `sort((a, b) => b[1] - a[1])`:
`a` may stay before `b` iff the comparator is ≤ 0, i.e. `b.count ≤ a.count`. -/
def descCountLe (a b : String × Nat) : Bool := decide (b.2 ≤ a.2)

/-- Feed.jsx 92-110: the popular-tags cloud. -/
def tagCloud (pool : List Event) : List CloudEntry :=
  ((sortLe descCountLe (buildCounts (tagCloudSeq pool))).take TAG_CLOUD_LIMIT).map
    (fun p =>
      { tag := (ALLOWED_TAGS.find? (fun x => decide (norm x = p.1))).getD p.1
        count := p.2 })

/-- Last event of the pool carrying the given id (models
`new Map(basePool.map(e => [e.id, e])).get(id)`, where a later entry for the
same key overwrites an earlier one). -/
def findLast (pool : List Event) (i : String) : Option Event :=
  pool.foldl (fun acc e => if e.id = i then some e else acc) none

/-- Feed.jsx 113-122: the trending list. `saveCounts` is the persisted
per-id save counter mapping, in insertion order. -/
def trending (pool : List Event) (saveCounts : List (String × Nat)) :
    List (Option Event × Nat) :=
  if pool.isEmpty then []
  else
    ((sortLe descCountLe
        (saveCounts.filter
          (fun p => decide (0 < p.2) && pool.any (fun e => decide (e.id = p.1))))).take 3).map
      (fun p => (findLast pool p.1, p.2))

/-- The searchable fields of an event in the order Feed.jsx 126-129 joins
them: title, description, organizer, location, then all tags; absent fields
become empty strings exactly as `undefined` does under `join`. -/
def searchFields (e : Event) : List String :=
  [e.title.getD "", e.description.getD "", e.organizer.getD "",
    e.location.getD ""] ++ e.tags

/-- The lower-cased haystack `hay` of Feed.jsx 126-129. -/
def hayData (e : Event) : List Char := lower (joinSp (searchFields e))

/-- Feed.jsx 124-132: free-text query matching. -/
def matchesQuery (e : Event) (q : String) : Bool :=
  if q.data.all Char.isWhitespace then true
  else (tokenizeL (lower q.data)).all (fun w => substrIn w (hayData e))

/-- Feed.jsx 134-138: start-time key, `none` standing for positive infinity
(start absent, or `new Date(iso).getTime()` not finite). -/
def dateOrInfinity : StartVal → Option Int
  | .absent => none
  | .invalid => none
  | .time t => some t

/-- Order on start-time keys with `none` as the top element. -/
def etLe : Option Int → Option Int → Bool
  | _, none => true
  | none, some _ => false
  | some a, some b => decide (a ≤ b)

/-- Date-sort comparator of Feed.jsx 153 (consistent form: `a` may stay
before `b` iff the numeric comparator is ≤ 0). -/
def dateLe (a b : Event) : Bool :=
  etLe (dateOrInfinity a.start) (dateOrInfinity b.start)

/-- Trending-sort comparator of Feed.jsx 158-162: saved events first, then
by start time. -/
def trendLe (savedIds : List String) (a b : Event) : Bool :=
  if savedIds.contains a.id ≠ savedIds.contains b.id then savedIds.contains a.id
  else dateLe a b

/-- Feed.jsx 142: level filter. -/
def withLevel (pool : List Event) (level : String) : List Event :=
  pool.filter (fun e => decide (level = "all") || decide (e.level = some level))

/-- Feed.jsx 145-148: selected-tags filter (normalized compare, OR across
selected tags; no-op when nothing is selected). -/
def withTags (pool : List Event) (selectedTags : List String) : List Event :=
  match selectedTags with
  | [] => pool
  | _ =>
    pool.filter (fun e =>
      e.tags.any (fun t => (selectedTags.map norm).any (fun s => decide (s = norm t))))

/-- Feed.jsx 150: search filter. -/
def withSearch (pool : List Event) (q : String) : List Event :=
  pool.filter (fun e => matchesQuery e q)

/-- Feed.jsx 141-163: the visible, filtered and sorted list. -/
def filtered (pool : List Event) (level : String) (sort : SortMode) (q : String)
    (selectedTags : List String) (savedIds : List String) : List Event :=
  let ws := withSearch (withTags (withLevel pool level) selectedTags) q
  match sort with
  | .date => sortLe dateLe ws
  | .trending => sortLe (trendLe savedIds) ws

/- ===== preference & save store (lib/storage.js, not under src/) ===== -/

/-- The persistent store state: the saved-id set and the per-id save
counters (integers, so that the non-negativity invariant is a statement and
not a typing artifact). -/
structure Store where
  savedIds : List String
  saveCounts : String → Int

/-- Modelled from the spec: `toggleSaved(id)` of §4.1 of the spec — the code
of `src/lib/storage.js` is not in the repository snapshot, only its callers.
Flips membership of `id` in SavedSet and adjusts SaveCounts for that id by
±1 with a floor at 0. -/
def toggleSaved (i : String) (s : Store) : Store :=
  if i ∈ s.savedIds then
    { savedIds := s.savedIds.filter (fun x => decide (x ≠ i))
      saveCounts := fun k => if k = i then max 0 (s.saveCounts k - 1) else s.saveCounts k }
  else
    { savedIds := i :: s.savedIds
      saveCounts := fun k => if k = i then s.saveCounts k + 1 else s.saveCounts k }

/-- Apply a sequence of save toggles in order. -/
def applyToggles (ops : List String) (s : Store) : Store :=
  ops.foldl (fun st i => toggleSaved i st) s

/-- The fresh store: nothing saved, all counters zero (the store treats
absent/unreadable persisted data as absence). -/
def initialStore : Store := { savedIds := [], saveCounts := fun _ => 0 }

/-- A store state reachable from the fresh store by save toggles. -/
def Reachable (s : Store) : Prop := ∃ ops, s = applyToggles ops initialStore

/- ===== preferences-change signal handling (Feed.jsx 52-76) ===== -/

/-- The part of the Feed view state the `userprefs-updated` handler touches. -/
structure FeedState where
  viewMode : ViewMode
  prefs : Option Prefs
deriving DecidableEq, Repr

/-- Feed.jsx 54-62: the `userprefs-updated` handler. `newPrefs` is the
resolved value of line 56 (the event detail, or the stored preferences when
the detail is absent). -/
def onPrefsUpdated (s : FeedState) (newPrefs : Option Prefs) : FeedState :=
  if newPrefs.isSome && decide (s.viewMode = .all) then
    { viewMode := .personalized, prefs := newPrefs }
  else
    { viewMode := s.viewMode, prefs := newPrefs }

/-- An explicit user click on a view-mode chip (Feed.jsx 193-199). -/
def setViewMode (s : FeedState) (m : ViewMode) : FeedState :=
  { s with viewMode := m }

/- ===== Saved page (src/pages/Saved.jsx) ===== -/

/-- Saved.jsx 11-19: the saved list is the `loadEvents()` catalog filtered
by the saved-id set. -/
def savedPageEvents (catalog : List Event) (savedIds : List String) : List Event :=
  catalog.filter (fun e => savedIds.contains e.id)

/-- Feed.jsx 41-50: the Feed view's catalog prepends custom events to the
loaded file events. -/
def feedCatalog (custom fileEvents : List Event) : List Event :=
  custom ++ fileEvents

/- ===== derived store predicate ===== -/

/-- The consistency invariant of the save store: all counters non-negative,
and a saved id has a counter of at least 1. -/
def StoreInv (s : Store) : Prop :=
  ∀ k, 0 ≤ s.saveCounts k ∧ (k ∈ s.savedIds → 1 ≤ s.saveCounts k)

/- ===== concrete instances used by witnesses and counterexamples ===== -/

/-- Preferences with interest `"ai"` (lower-case). -/
def ceP1 : Prefs := { name := "x", faculty := "Science", interests := ["ai"] }

/-- An event tagged `"AI"` (upper-case), faculty absent. -/
def ceEvt1 : Event := { id := "e1", tags := ["AI"] }

/-- An event whose tag list mentions `"ai"` before `"hackathon"`. -/
def evTie : Event := { id := "t", tags := ["ai", "hackathon"] }

/-- Scenario event 1 of the spec: id "1", has a start time. -/
def evScn1 : Event :=
  { id := "1", title := some "AI Hackathon", tags := ["ai", "hackathon"]
    start := .time 1736467200000 }

/-- Scenario event 2 of the spec: id "2", no start time. -/
def evScn2 : Event :=
  { id := "2", title := some "Design Talk", tags := ["design"], start := .absent }

/-- A scheduled witness event. -/
def evW1 : Event := { id := "w1", title := some "Alpha", start := .time 5 }

/-- Two unscheduled witness events. -/
def evA5 : Event := { id := "a5", title := some "Beta", start := .absent }

def evB5 : Event := { id := "b5", title := some "Gamma", start := .absent }

/-- Witness event for the trending list. -/
def evT4 : Event := { id := "t4", title := some "Delta", start := .time 7 }

/-- Witness event for the Saved page. -/
def evC10 : Event := { id := "c", title := some "Catalogued" }

/-- A store in which only "a" has been toggled once. -/
def sW7 : Store := applyToggles ["a"] initialStore

/-- A view that had preferences, then explicitly chose the All mode. -/
def ceState9 : FeedState :=
  setViewMode { viewMode := .personalized, prefs := some ceP1 } .all

/- ===== generic lemmas about the stable sort ===== -/

theorem insertLe_perm (le : α → α → Bool) (x : α) :
    ∀ l : List α, (insertLe le x l).Perm (x :: l) := by
  intro l
  induction l with
  | nil => simp [insertLe]
  | cons y ys ih =>
    by_cases h : le x y = true
    · simp [insertLe, h]
    · have heq : insertLe le x (y :: ys) = y :: insertLe le x ys := by
        simp [insertLe, h]
      rw [heq]
      exact ((ih.cons y).trans (List.Perm.swap x y ys))

theorem sortLe_perm (le : α → α → Bool) :
    ∀ l : List α, (sortLe le l).Perm l := by
  intro l
  induction l with
  | nil => simp [sortLe]
  | cons x xs ih =>
    exact (insertLe_perm le x (sortLe le xs)).trans (ih.cons x)

theorem mem_insertLe (le : α → α → Bool) (x a : α) (l : List α) :
    a ∈ insertLe le x l ↔ a = x ∨ a ∈ l := by
  rw [(insertLe_perm le x l).mem_iff, List.mem_cons]

theorem insertLe_pairwise (le : α → α → Bool)
    (htot : ∀ a b, le a b = true ∨ le b a = true)
    (htrans : ∀ a b c, le a b = true → le b c = true → le a c = true)
    (x : α) :
    ∀ l : List α, l.Pairwise (fun a b => le a b = true) →
      (insertLe le x l).Pairwise (fun a b => le a b = true) := by
  intro l
  induction l with
  | nil => simp [insertLe]
  | cons y ys ih =>
    intro hp
    rw [List.pairwise_cons] at hp
    obtain ⟨h1, h2⟩ := hp
    by_cases h : le x y = true
    · simp only [insertLe, h, if_pos]
      rw [List.pairwise_cons]
      constructor
      · intro z hz
        rcases List.mem_cons.mp hz with rfl | hz
        · exact h
        · exact htrans x y z h (h1 z hz)
      · rw [List.pairwise_cons]
        exact ⟨h1, h2⟩
    · simp only [insertLe, h, if_neg, Bool.false_eq_true, not_false_iff]
      rw [List.pairwise_cons]
      constructor
      · intro z hz
        rcases (mem_insertLe le x z ys).mp hz with rfl | hz
        · rcases htot z y with h' | h'
          · exact absurd h' h
          · exact h'
        · exact h1 z hz
      · exact ih h2

theorem sortLe_pairwise (le : α → α → Bool)
    (htot : ∀ a b, le a b = true ∨ le b a = true)
    (htrans : ∀ a b c, le a b = true → le b c = true → le a c = true) :
    ∀ l : List α, (sortLe le l).Pairwise (fun a b => le a b = true) := by
  intro l
  induction l with
  | nil => simp [sortLe]
  | cons x xs ih => exact insertLe_pairwise le htot htrans x _ ih

theorem sublist_insertLe (le : α → α → Bool) (x : α) :
    ∀ l : List α, l.Sublist (insertLe le x l) := by
  intro l
  induction l with
  | nil => simp [insertLe]
  | cons y ys ih =>
    by_cases h : le x y = true
    · simp only [insertLe, h, if_pos]
      exact (List.Sublist.refl (y :: ys)).cons x
    · simp only [insertLe, h, if_neg, Bool.false_eq_true, not_false_iff]
      exact ih.cons₂ y

theorem insertLe_stable (le : α → α → Bool) (a b : α)
    (hab : le a b = true) :
    ∀ l : List α, b ∈ l → [a, b].Sublist (insertLe le a l) := by
  intro l
  induction l with
  | nil => intro h; cases h
  | cons y ys ih =>
    intro hb
    by_cases h : le a y = true
    · simp only [insertLe, h, if_pos]
      exact List.Sublist.cons₂ a (List.singleton_sublist.mpr hb)
    · simp only [insertLe, h, if_neg, Bool.false_eq_true, not_false_iff]
      rcases List.mem_cons.mp hb with rfl | hb
      · exact absurd hab h
      · exact (ih hb).cons y

theorem sortLe_stable (le : α → α → Bool) (a b : α) :
    ∀ l : List α, [a, b].Sublist l → le a b = true →
      [a, b].Sublist (sortLe le l) := by
  intro l
  induction l with
  | nil => intro h; cases h
  | cons x xs ih =>
    intro hs hab
    cases hs with
    | cons _ h => exact ((ih h hab).trans (sublist_insertLe le x (sortLe le xs)))
    | cons₂ _ h =>
      have hb : b ∈ sortLe le xs :=
        (sortLe_perm le xs).symm.subset (List.singleton_sublist.mp h)
      exact insertLe_stable le a b hab (sortLe le xs) hb

theorem two_mem_sublist {a b : α} :
    ∀ {l : List α}, a ∈ l → b ∈ l → a ≠ b →
      [a, b].Sublist l ∨ [b, a].Sublist l := by
  intro l
  induction l with
  | nil => intro h; cases h
  | cons x xs ih =>
    intro ha hb hne
    rcases List.mem_cons.mp ha with rfl | ha2
    · rcases List.mem_cons.mp hb with rfl | hb2
      · exact absurd rfl hne
      · exact Or.inl (List.Sublist.cons₂ a (List.singleton_sublist.mpr hb2))
    · rcases List.mem_cons.mp hb with rfl | hb2
      · exact Or.inr (List.Sublist.cons₂ b (List.singleton_sublist.mpr ha2))
      · rcases ih ha2 hb2 hne with h | h
        · exact Or.inl (h.cons x)
        · exact Or.inr (h.cons x)

theorem pair_sublist_nodup {a b : α} :
    ∀ {l : List α}, [a, b].Sublist l → [b, a].Sublist l → l.Nodup → a = b := by
  intro l
  induction l with
  | nil => intro h; cases h
  | cons x xs ih =>
    intro h1 h2 hn
    rw [List.nodup_cons] at hn
    cases h1 with
    | cons _ h1' =>
      cases h2 with
      | cons _ h2' => exact ih h1' h2' hn.2
      | cons₂ _ h2' => exact absurd (h1'.subset (by simp)) hn.1
    | cons₂ _ h1' =>
      cases h2 with
      | cons _ h2' => exact absurd (h2'.subset (by simp)) hn.1
      | cons₂ _ h2' => rfl

theorem rel_of_pairwise_pair {R : α → α → Prop} {a b : α} {l : List α}
    (hp : l.Pairwise R) (hs : [a, b].Sublist l) : R a b := by
  have h2 := List.Pairwise.sublist hs hp
  rw [List.pairwise_cons] at h2
  exact h2.1 b (List.mem_cons_self b [])

/- ===== lemmas about the insertion-ordered counter map ===== -/

theorem bump_keys_mem (k : String) :
    ∀ acc : List (String × Nat), k ∈ acc.map Prod.fst →
      (bump k acc).map Prod.fst = acc.map Prod.fst := by
  intro acc
  induction acc with
  | nil => intro h; cases h
  | cons p rest ih =>
    intro h
    by_cases hk : p.1 = k
    · simp [bump, hk]
    · have hm : k ∈ rest.map Prod.fst := by
        rcases List.mem_cons.mp h with h' | h'
        · exact absurd h'.symm hk
        · exact h'
      simp [bump, hk, ih hm]

theorem bump_keys_not_mem (k : String) :
    ∀ acc : List (String × Nat), k ∉ acc.map Prod.fst →
      (bump k acc).map Prod.fst = acc.map Prod.fst ++ [k] := by
  intro acc
  induction acc with
  | nil => intro _; simp [bump]
  | cons p rest ih =>
    intro h
    have hk : p.1 ≠ k := by
      intro he
      exact h (List.mem_cons.mpr (Or.inl he.symm))
    have hm : k ∉ rest.map Prod.fst := fun hmem => h (List.mem_cons.mpr (Or.inr hmem))
    simp [bump, hk, ih hm]

theorem dedupSeen_congr :
    ∀ (l : List String) (s1 s2 : List String), (∀ x, x ∈ s1 ↔ x ∈ s2) →
      dedupSeen s1 l = dedupSeen s2 l := by
  intro l
  induction l with
  | nil => intro s1 s2 _; rfl
  | cons k ks ih =>
    intro s1 s2 hs
    by_cases hk : k ∈ s1
    · simp [dedupSeen, hk, (hs k).mp hk, ih s1 s2 hs]
    · have hk2 : k ∉ s2 := fun h => hk ((hs k).mpr h)
      simp only [dedupSeen, if_neg hk, if_neg hk2]
      congr 1
      refine ih (k :: s1) (k :: s2) (fun x => ?_)
      simp [hs x]

theorem keys_foldl_bump :
    ∀ (seq : List String) (acc : List (String × Nat)),
      (seq.foldl (fun a k => bump k a) acc).map Prod.fst =
        acc.map Prod.fst ++ dedupSeen (acc.map Prod.fst) seq := by
  intro seq
  induction seq with
  | nil => intro acc; simp [dedupSeen]
  | cons k ks ih =>
    intro acc
    show (ks.foldl (fun a k => bump k a) (bump k acc)).map Prod.fst = _
    rw [ih (bump k acc)]
    by_cases hk : k ∈ acc.map Prod.fst
    · rw [bump_keys_mem k acc hk]
      simp [dedupSeen, hk]
    · rw [bump_keys_not_mem k acc hk]
      simp only [dedupSeen, if_neg hk]
      rw [List.append_assoc]
      congr 1
      show [k] ++ dedupSeen (acc.map Prod.fst ++ [k]) ks = k :: dedupSeen (k :: acc.map Prod.fst) ks
      simp only [List.singleton_append, List.cons.injEq, true_and]
      refine dedupSeen_congr ks _ _ (fun x => ?_)
      simp [or_comm]

theorem buildCounts_keys (seq : List String) :
    (buildCounts seq).map Prod.fst = dedupSeen [] seq := by
  have h := keys_foldl_bump seq []
  simpa [buildCounts] using h

theorem mem_dedupSeen :
    ∀ (l seen : List String) (x : String), x ∈ dedupSeen seen l →
      x ∉ seen ∧ x ∈ l := by
  intro l
  induction l with
  | nil => intro seen x h; cases h
  | cons k ks ih =>
    intro seen x h
    by_cases hk : k ∈ seen
    · rw [dedupSeen, if_pos hk] at h
      obtain ⟨h1, h2⟩ := ih seen x h
      exact ⟨h1, List.mem_cons.mpr (Or.inr h2)⟩
    · rw [dedupSeen, if_neg hk] at h
      rcases List.mem_cons.mp h with rfl | h'
      · exact ⟨hk, List.mem_cons_self x ks⟩
      · obtain ⟨h1, h2⟩ := ih (k :: seen) x h'
        exact ⟨fun hmem => h1 (List.mem_cons.mpr (Or.inr hmem)),
          List.mem_cons.mpr (Or.inr h2)⟩

theorem nodup_dedupSeen :
    ∀ (l seen : List String), (dedupSeen seen l).Nodup := by
  intro l
  induction l with
  | nil => intro seen; simp [dedupSeen]
  | cons k ks ih =>
    intro seen
    by_cases hk : k ∈ seen
    · rw [dedupSeen, if_pos hk]; exact ih seen
    · rw [dedupSeen, if_neg hk]
      rw [List.nodup_cons]
      refine ⟨fun hmem => ?_, ih (k :: seen)⟩
      exact (mem_dedupSeen ks (k :: seen) k hmem).1 (List.mem_cons_self k seen)

theorem dedupSeen_firstIdx :
    ∀ (l seen : List String) (a b : String),
      [a, b].Sublist (dedupSeen seen l) → firstIdx a l < firstIdx b l := by
  intro l
  induction l with
  | nil => intro seen a b h; cases h
  | cons k ks ih =>
    intro seen a b h
    by_cases hk : k ∈ seen
    · rw [dedupSeen, if_pos hk] at h
      have ha : a ∉ seen := (mem_dedupSeen ks seen a (h.subset (by simp))).1
      have hb : b ∉ seen := (mem_dedupSeen ks seen b (h.subset (by simp))).1
      have hak : k ≠ a := fun he => ha (by rw [he] at hk; exact hk)
      have hbk : k ≠ b := fun he => hb (by rw [he] at hk; exact hk)
      have hlt := ih seen a b h
      simp only [firstIdx]
      rw [if_neg hak, if_neg hbk]
      omega
    · rw [dedupSeen, if_neg hk] at h
      cases h with
      | cons _ h' =>
        have ha := mem_dedupSeen ks (k :: seen) a (h'.subset (by simp))
        have hb := mem_dedupSeen ks (k :: seen) b (h'.subset (by simp))
        have hak : k ≠ a := fun he => ha.1 (by rw [he]; exact List.mem_cons_self _ _)
        have hbk : k ≠ b := fun he => hb.1 (by rw [he]; exact List.mem_cons_self _ _)
        have hlt := ih (k :: seen) a b h'
        simp only [firstIdx]
        rw [if_neg hak, if_neg hbk]
        omega
      | cons₂ _ h' =>
        have hb := mem_dedupSeen ks (k :: seen) b (List.singleton_sublist.mp h')
        have hbk : k ≠ b := fun he => hb.1 (by rw [he]; exact List.mem_cons_self _ _)
        simp only [firstIdx]
        rw [if_neg hbk]
        simp

theorem buildCounts_pair_firstIdx {seq : List String} {p1 p2 : String × Nat}
    (h : [p1, p2].Sublist (buildCounts seq)) :
    firstIdx p1.1 seq < firstIdx p2.1 seq := by
  have hk : [p1.1, p2.1].Sublist ((buildCounts seq).map Prod.fst) := by
    have := List.Sublist.map Prod.fst h
    simpa using this
  rw [buildCounts_keys] at hk
  exact dedupSeen_firstIdx seq [] p1.1 p2.1 hk

theorem lookupC_bump_self (k : String) :
    ∀ acc : List (String × Nat), lookupC k (bump k acc) = lookupC k acc + 1 := by
  intro acc
  induction acc with
  | nil => simp [bump, lookupC]
  | cons p rest ih =>
    by_cases hk : p.1 = k
    · simp [bump, lookupC, hk]
    · simp [bump, lookupC, hk, ih]

theorem lookupC_bump_ne (k k2 : String) (hne : k2 ≠ k) :
    ∀ acc : List (String × Nat), lookupC k2 (bump k acc) = lookupC k2 acc := by
  intro acc
  have hne2 : k ≠ k2 := Ne.symm hne
  induction acc with
  | nil => simp [bump, lookupC, hne2]
  | cons p rest ih =>
    by_cases hk : p.1 = k
    · simp [bump, lookupC, hk, hne2]
    · by_cases hk2 : p.1 = k2
      · simp [bump, lookupC, hk, hk2, hne, ih]
      · simp [bump, lookupC, hk, hk2, hne, ih]

theorem lookupC_foldl (k : String) :
    ∀ (seq : List String) (acc : List (String × Nat)),
      lookupC k (seq.foldl (fun a x => bump x a) acc) =
        lookupC k acc + seq.count k := by
  intro seq
  induction seq with
  | nil => intro acc; simp
  | cons x xs ih =>
    intro acc
    show lookupC k (xs.foldl (fun a x => bump x a) (bump x acc)) = _
    rw [ih (bump x acc)]
    by_cases hx : x = k
    · subst hx
      rw [lookupC_bump_self x acc]
      simp [List.count_cons]
      omega
    · rw [lookupC_bump_ne x k (fun h => hx h.symm) acc]
      have : (x == k) = false := by simp [hx]
      simp [List.count_cons, this]

theorem mem_entry_lookupC {p : String × Nat} :
    ∀ l : List (String × Nat), (l.map Prod.fst).Nodup → p ∈ l →
      p.2 = lookupC p.1 l := by
  intro l
  induction l with
  | nil => intro _ h; cases h
  | cons q rest ih =>
    intro hn hp
    rw [List.map_cons, List.nodup_cons] at hn
    rcases List.mem_cons.mp hp with rfl | hp'
    · simp [lookupC]
    · have hq : q.1 ≠ p.1 := by
        intro he
        exact hn.1 (he ▸ List.mem_map.mpr ⟨p, hp', rfl⟩)
      rw [lookupC, if_neg hq]
      exact ih hn.2 hp'

theorem buildCounts_nodup_keys (seq : List String) :
    ((buildCounts seq).map Prod.fst).Nodup := by
  rw [buildCounts_keys]
  exact nodup_dedupSeen seq []

theorem buildCounts_count {seq : List String} {p : String × Nat}
    (hp : p ∈ buildCounts seq) : p.2 = seq.count p.1 := by
  have h := mem_entry_lookupC (buildCounts seq) (buildCounts_nodup_keys seq) hp
  rw [h]
  have h2 := lookupC_foldl p.1 seq []
  simpa [buildCounts, lookupC] using h2

theorem buildCounts_key_mem {seq : List String} {p : String × Nat}
    (hp : p ∈ buildCounts seq) : p.1 ∈ seq := by
  have hk : p.1 ∈ (buildCounts seq).map Prod.fst := List.mem_map.mpr ⟨p, hp, rfl⟩
  rw [buildCounts_keys] at hk
  exact (mem_dedupSeen seq [] p.1 hk).2

/- ===== comparator facts ===== -/

theorem etLe_total (x y : Option Int) : etLe x y = true ∨ etLe y x = true := by
  cases x with
  | none => cases y with
    | none => left; rfl
    | some b => right; rfl
  | some a => cases y with
    | none => left; rfl
    | some b =>
      rcases Int.le_total a b with h | h
      · left; simp [etLe, h]
      · right; simp [etLe, h]

theorem etLe_trans (x y z : Option Int) :
    etLe x y = true → etLe y z = true → etLe x z = true := by
  cases x <;> cases y <;> cases z <;> (simp [etLe]; try omega)

theorem etLe_refl (x : Option Int) : etLe x x = true := by
  cases x <;> simp [etLe]

theorem dateLe_total (a b : Event) : dateLe a b = true ∨ dateLe b a = true :=
  etLe_total _ _

theorem dateLe_trans (a b c : Event) :
    dateLe a b = true → dateLe b c = true → dateLe a c = true :=
  etLe_trans _ _ _

theorem trendLe_total (ids : List String) (a b : Event) :
    trendLe ids a b = true ∨ trendLe ids b a = true := by
  unfold trendLe
  by_cases h : ids.contains a.id = ids.contains b.id
  · rw [if_neg (fun hne => hne h), if_neg (fun hne => hne h.symm)]
    exact dateLe_total a b
  · rw [if_pos h, if_pos (Ne.symm h)]
    cases hca : ids.contains a.id with
    | true => left; rfl
    | false =>
      cases hcb : ids.contains b.id with
      | true => right; rfl
      | false => exact absurd (hca.trans hcb.symm) h

theorem trendLe_trans (ids : List String) (a b c : Event) :
    trendLe ids a b = true → trendLe ids b c = true → trendLe ids a c = true := by
  intro h1 h2
  unfold trendLe at h1 h2 ⊢
  by_cases e1 : ids.contains a.id = ids.contains b.id
  · rw [if_neg (fun hne => hne e1)] at h1
    by_cases e2 : ids.contains b.id = ids.contains c.id
    · rw [if_neg (fun hne => hne e2)] at h2
      rw [if_neg (fun hne => hne (e1.trans e2))]
      exact dateLe_trans a b c h1 h2
    · rw [if_pos e2] at h2
      have hc : ids.contains c.id = false := by
        cases hx : ids.contains c.id
        · rfl
        · exact absurd (h2.trans hx.symm) e2
      have ha : ids.contains a.id = true := e1.trans h2
      rw [if_pos (by rw [ha, hc]; decide)]
      exact ha
  · rw [if_pos e1] at h1
    have ha : ids.contains a.id = true := h1
    have hb : ids.contains b.id = false := by
      cases hx : ids.contains b.id
      · rfl
      · exact absurd (ha.trans hx.symm) e1
    by_cases e2 : ids.contains b.id = ids.contains c.id
    · have hc : ids.contains c.id = false := by rw [← e2]; exact hb
      rw [if_pos (by rw [ha, hc]; decide)]
      exact ha
    · rw [if_pos e2, hb] at h2
      simp at h2

theorem descCountLe_total (a b : String × Nat) :
    descCountLe a b = true ∨ descCountLe b a = true := by
  unfold descCountLe
  rcases Nat.le_total a.2 b.2 with h | h
  · right; simp [h]
  · left; simp [h]

theorem descCountLe_trans (a b c : String × Nat) :
    descCountLe a b = true → descCountLe b c = true → descCountLe a c = true := by
  unfold descCountLe
  simp
  omega

/- ===== whitespace / tokenizer facts (for the empty-query rule) ===== -/

theorem toLower_whitespace (c : Char) (h : c.isWhitespace = true) :
    (Char.toLower c).isWhitespace = true := by
  have h2 : c = ' ' ∨ c = '\t' ∨ c = '\r' ∨ c = '\n' := by
    revert h
    simp only [Char.isWhitespace, Bool.or_eq_true, decide_eq_true_eq]
    tauto
  rcases h2 with rfl | rfl | rfl | rfl <;> decide

theorem tokenizeAux_all_ws :
    ∀ l : List Char, (∀ c ∈ l, c.isWhitespace = true) → tokenizeAux l [] = [] := by
  intro l
  induction l with
  | nil => intro _; rfl
  | cons c cs ih =>
    intro h
    have hc : c.isWhitespace = true := h c (List.mem_cons_self c cs)
    simp only [tokenizeAux, hc, if_pos, List.isEmpty_nil, if_true]
    exact ih (fun x hx => h x (List.mem_cons.mpr (Or.inr hx)))

theorem tokenizeL_lower_ws (q : String) (h : q.data.all Char.isWhitespace = true) :
    tokenizeL (lower q.data) = [] := by
  apply tokenizeAux_all_ws
  intro c hc
  rw [List.all_eq_true] at h
  obtain ⟨c0, hc0, rfl⟩ := List.mem_map.mp hc
  exact toLower_whitespace c0 (h c0 hc0)

/- ===== store invariants ===== -/

theorem storeInv_initial : StoreInv initialStore := by
  intro k
  refine ⟨le_refl 0, fun h => ?_⟩
  cases h

theorem storeInv_toggle {s : Store} (hs : StoreInv s) (i : String) :
    StoreInv (toggleSaved i s) := by
  intro k
  unfold toggleSaved
  by_cases hmem : i ∈ s.savedIds
  · rw [if_pos hmem]
    by_cases hk : k = i
    · subst hk
      refine ⟨by simp [le_max_left], fun h => ?_⟩
      exact absurd ((List.mem_filter.mp h).2) (by simp)
    · refine ⟨by simp [hk, (hs k).1], fun h => ?_⟩
      simp only [if_neg hk]
      exact (hs k).2 (List.mem_filter.mp h).1
  · rw [if_neg hmem]
    by_cases hk : k = i
    · subst hk
      have h0 := (hs k).1
      refine ⟨by simp; omega, fun _ => by simp; omega⟩
    · refine ⟨by simp [hk, (hs k).1], fun h => ?_⟩
      simp only [if_neg hk]
      rcases List.mem_cons.mp h with he | hmem2
      · exact absurd he hk
      · exact (hs k).2 hmem2

theorem storeInv_applyToggles :
    ∀ (ops : List String) (s : Store), StoreInv s → StoreInv (applyToggles ops s) := by
  intro ops
  induction ops with
  | nil => intro s hs; exact hs
  | cons i rest ih =>
    intro s hs
    exact ih (toggleSaved i s) (storeInv_toggle hs i)

theorem storeInv_reachable {s : Store} (h : Reachable s) : StoreInv s := by
  obtain ⟨ops, rfl⟩ := h
  exact storeInv_applyToggles ops initialStore storeInv_initial

/-- Non-negativity alone is also preserved from an arbitrary non-negative
initial state (no saved-set consistency assumed). -/
theorem nonneg_toggle {s : Store} (hs : ∀ k, 0 ≤ s.saveCounts k) (i : String) :
    ∀ k, 0 ≤ (toggleSaved i s).saveCounts k := by
  intro k
  unfold toggleSaved
  by_cases hmem : i ∈ s.savedIds
  · rw [if_pos hmem]
    by_cases hk : k = i
    · simp [hk, le_max_left]
    · simp [hk, hs k]
  · rw [if_neg hmem]
    by_cases hk : k = i
    · subst hk
      have := hs k
      simp
      omega
    · simp [hk, hs k]

theorem nonneg_applyToggles :
    ∀ (ops : List String) (s : Store), (∀ k, 0 ≤ s.saveCounts k) →
      ∀ k, 0 ≤ (applyToggles ops s).saveCounts k := by
  intro ops
  induction ops with
  | nil => intro s hs; exact hs
  | cons i rest ih =>
    intro s hs
    exact ih (toggleSaved i s) (nonneg_toggle hs i)

/- ===== toggle step characterizations ===== -/

theorem toggle_on (s : Store) (i : String) (h : i ∉ s.savedIds) :
    (toggleSaved i s).savedIds = i :: s.savedIds ∧
      ∀ k, (toggleSaved i s).saveCounts k =
        if k = i then s.saveCounts k + 1 else s.saveCounts k := by
  unfold toggleSaved
  rw [if_neg h]
  exact ⟨rfl, fun k => rfl⟩

theorem toggle_off (s : Store) (i : String) (h : i ∈ s.savedIds) :
    (toggleSaved i s).savedIds = s.savedIds.filter (fun x => decide (x ≠ i)) ∧
      ∀ k, (toggleSaved i s).saveCounts k =
        if k = i then max 0 (s.saveCounts k - 1) else s.saveCounts k := by
  unfold toggleSaved
  rw [if_pos h]
  exact ⟨rfl, fun k => rfl⟩

/- ===== claim theorems ===== -/

/-- C7: for every store state reachable by save toggles from the fresh
store and every id X, toggling X twice restores both the SavedSet
membership of X and SaveCounts[X] to their values before the first call. -/
theorem toggleSaved_double_c7 :
    ∀ (s : Store) (X : String), Reachable s →
      ((X ∈ (toggleSaved X (toggleSaved X s)).savedIds ↔ X ∈ s.savedIds)
        ∧ (toggleSaved X (toggleSaved X s)).saveCounts X = s.saveCounts X) := by
  intro s X hr
  have hinv := storeInv_reachable hr
  by_cases hmem : X ∈ s.savedIds
  · obtain ⟨hs1, hc1f⟩ := toggle_off s X hmem
    have hnotmem : X ∉ (toggleSaved X s).savedIds := by
      rw [hs1]
      intro hx
      exact absurd (List.mem_filter.mp hx).2 (by simp)
    obtain ⟨hs2, hc2f⟩ := toggle_on (toggleSaved X s) X hnotmem
    constructor
    · rw [hs2]
      simp [hmem]
    · rw [hc2f X, if_pos rfl, hc1f X, if_pos rfl]
      have h1 := (hinv X).2 hmem
      have hm : max 0 (s.saveCounts X - 1) = s.saveCounts X - 1 :=
        max_eq_right (by omega)
      rw [hm]
      omega
  · obtain ⟨hs1, hc1f⟩ := toggle_on s X hmem
    have hmem2 : X ∈ (toggleSaved X s).savedIds := by
      rw [hs1]
      exact List.mem_cons_self X s.savedIds
    obtain ⟨hs2, hc2f⟩ := toggle_off (toggleSaved X s) X hmem2
    constructor
    · rw [hs2]
      constructor
      · intro hx
        exact absurd (List.mem_filter.mp hx).2 (by simp)
      · intro hx
        exact absurd hx hmem
    · rw [hc2f X, if_pos rfl, hc1f X, if_pos rfl]
      have h0 := (hinv X).1
      have hm : max 0 (s.saveCounts X + 1 - 1) = s.saveCounts X + 1 - 1 :=
        max_eq_right (by omega)
      rw [hm]
      omega

/-- Witness for C7 at the concrete store reached by toggling "a" once. -/
theorem toggleSaved_double_witness_c7 :
    (("a" ∈ (toggleSaved "a" (toggleSaved "a" sW7)).savedIds ↔ "a" ∈ sW7.savedIds)
      ∧ (toggleSaved "a" (toggleSaved "a" sW7)).saveCounts "a" = sW7.saveCounts "a") :=
  toggleSaved_double_c7 sW7 "a" ⟨["a"], rfl⟩

/-- C8: from any store whose counters are all non-negative, every sequence of
save toggles keeps every counter non-negative; moreover toggling an unsaved
id on increments its counter by 1 and toggling a saved id off decrements it
by 1 with a floor at 0. -/
theorem saveCounts_nonneg_c8 :
    (∀ init : Store, (∀ k, 0 ≤ init.saveCounts k) →
        ∀ (ops : List String) (X : String), 0 ≤ (applyToggles ops init).saveCounts X)
    ∧ (∀ (s : Store) (X : String),
        (X ∉ s.savedIds → (toggleSaved X s).saveCounts X = s.saveCounts X + 1)
        ∧ (X ∈ s.savedIds → (toggleSaved X s).saveCounts X = max 0 (s.saveCounts X - 1))) := by
  constructor
  · intro init h ops X
    exact nonneg_applyToggles ops init h X
  · intro s X
    constructor
    · intro h
      rw [(toggle_on s X h).2 X, if_pos rfl]
    · intro h
      rw [(toggle_off s X h).2 X, if_pos rfl]

/-- Witness for C8: after toggling "a" on and off from the fresh store the
counter is still non-negative. -/
theorem saveCounts_nonneg_witness_c8 :
    0 ≤ (applyToggles ["a", "a"] initialStore).saveCounts "a" :=
  saveCounts_nonneg_c8.1 initialStore (fun _ => le_refl 0) ["a", "a"] "a"

/-- C9 (amended): on a preferences signal resolving to a non-null value,
a view in `all` mode always switches to `personalized` — regardless of
whether `all` was an explicit prior user choice made while preferences
existed — a view in `personalized` mode keeps its mode, and a signal
resolving to no preferences never changes the mode. -/
theorem prefsSignal_spec_c9 :
    ∀ (s : FeedState) (p : Option Prefs),
      (s.viewMode = .all → p.isSome = true →
        (onPrefsUpdated s p).viewMode = .personalized)
      ∧ (s.viewMode = .personalized → (onPrefsUpdated s p).viewMode = .personalized)
      ∧ (p = none → (onPrefsUpdated s p).viewMode = s.viewMode)
      ∧ (onPrefsUpdated s p).prefs = p := by
  intro s p
  obtain ⟨vm, pr⟩ := s
  cases vm <;> cases p <;> simp [onPrefsUpdated]

/-- Counterexample for C9 as stated: a view that had preferences and was
put in `all` mode by an explicit user choice still auto-switches to
`personalized` on the next preferences signal. -/
theorem prefsSignal_counterexample_c9 :
    ceState9.viewMode = .all ∧ ceState9.prefs = some ceP1 ∧
      (onPrefsUpdated ceState9 (some ceP1)).viewMode = .personalized :=
  ⟨rfl, rfl, rfl⟩

/-- Witness for C9 at a concrete first-time preferences signal. -/
theorem prefsSignal_witness_c9 :
    (onPrefsUpdated { viewMode := .all, prefs := none } (some ceP1)).viewMode
      = .personalized :=
  (prefsSignal_spec_c9 { viewMode := .all, prefs := none } (some ceP1)).1 rfl rfl

/-- C10: the Saved page's list is derived only from the catalog: an id
appears in it iff it is saved and some catalog event carries it; hence a
saved custom event (present in the Feed catalog but not in the loaded
catalog) never appears in the Saved list. -/
theorem savedPage_catalog_c10 :
    ∀ (catalog : List Event) (savedIds : List String) (i : String),
      ((∃ e, e ∈ savedPageEvents catalog savedIds ∧ e.id = i) ↔
        (savedIds.contains i = true ∧ ∃ e, e ∈ catalog ∧ e.id = i))
      ∧ (∀ (custom : List Event) (c : Event), c ∈ custom → c.id = i →
          (∀ e ∈ catalog, e.id ≠ i) →
          (c ∈ feedCatalog custom catalog
            ∧ ¬ ∃ e, e ∈ savedPageEvents catalog savedIds ∧ e.id = i)) := by
  intro catalog savedIds i
  constructor
  · constructor
    · rintro ⟨e, he, rfl⟩
      obtain ⟨hmem, hsaved⟩ := List.mem_filter.mp he
      exact ⟨hsaved, e, hmem, rfl⟩
    · rintro ⟨hsaved, e, hmem, rfl⟩
      exact ⟨e, List.mem_filter.mpr ⟨hmem, hsaved⟩, rfl⟩
  · intro custom c hc hci hnone
    refine ⟨List.mem_append.mpr (Or.inl hc), ?_⟩
    rintro ⟨e, he, rfl⟩
    exact hnone e (List.mem_filter.mp he).1 rfl

/-- Witness for C10: a saved custom event is in the Feed catalog but not in
the Saved list. -/
theorem savedPage_witness_c10 :
    (ceEvt1 ∈ feedCatalog [ceEvt1] [evC10]
      ∧ ¬ ∃ e, e ∈ savedPageEvents [evC10] ["e1"] ∧ e.id = "e1") :=
  (savedPage_catalog_c10 [evC10] ["e1"] "e1").2 [ceEvt1] ceEvt1
    (List.mem_cons_self ceEvt1 []) rfl
    (by intro e he; simp at he; rw [he]; decide)

/-- C1 (amended): with viewMode personalized and preferences present, the
base pool contains exactly the events whose faculty is absent, `All`, or
the user's faculty AND whose tag list shares an element with the interest
list under exact string equality (the code's `includes`, with no
case/whitespace normalization); with viewMode `all` or no preferences the
base pool is the full event list; an empty event list gives an empty pool. -/
theorem basePool_membership_c1 :
    ∀ (events : List Event) (p : Prefs) (prefs : Option Prefs) (mode : ViewMode)
      (e : Event),
      (e ∈ basePool events (some p) .personalized ↔
        e ∈ events
          ∧ (e.faculty = none ∨ e.faculty = some "All" ∨ e.faculty = some p.faculty)
          ∧ ∃ t ∈ e.tags, t ∈ p.interests)
      ∧ basePool events prefs .all = events
      ∧ basePool events none mode = events
      ∧ basePool [] prefs mode = [] := by
  intro events p prefs mode e
  refine ⟨?_, ?_, ?_, ?_⟩
  · cases events with
    | nil => simp [basePool]
    | cons x xs =>
      show e ∈ (x :: xs).filter (basePred p) ↔ _
      rw [List.mem_filter]
      unfold basePred
      constructor
      · rintro ⟨hmem, hb⟩
        rw [Bool.and_eq_true] at hb
        obtain ⟨hfac, htag⟩ := hb
        refine ⟨hmem, ?_, ?_⟩
        · rcases Bool.or_eq_true _ _ |>.mp hfac with h | h
          · rcases Bool.or_eq_true _ _ |>.mp h with h' | h'
            · exact Or.inl (of_decide_eq_true h')
            · exact Or.inr (Or.inl (of_decide_eq_true h'))
          · exact Or.inr (Or.inr (of_decide_eq_true h))
        · obtain ⟨t, ht, hin⟩ := List.any_eq_true.mp htag
          obtain ⟨i, hi, hit⟩ := List.any_eq_true.mp hin
          exact ⟨t, ht, (of_decide_eq_true hit) ▸ hi⟩
      · rintro ⟨hmem, hfac, t, ht, hin⟩
        refine ⟨hmem, ?_⟩
        rw [Bool.and_eq_true]
        constructor
        · rcases hfac with h | h | h
          · exact Bool.or_eq_true _ _ |>.mpr (Or.inl
              (Bool.or_eq_true _ _ |>.mpr (Or.inl (decide_eq_true h))))
          · exact Bool.or_eq_true _ _ |>.mpr (Or.inl
              (Bool.or_eq_true _ _ |>.mpr (Or.inr (decide_eq_true h))))
          · exact Bool.or_eq_true _ _ |>.mpr (Or.inr (decide_eq_true h))
        · exact List.any_eq_true.mpr
            ⟨t, ht, List.any_eq_true.mpr ⟨t, hin, decide_eq_true rfl⟩⟩
  · cases events <;> simp [basePool]
  · cases events <;> cases mode <;> simp [basePool]
  · rfl

/-- Counterexample for C1 as stated: with interests `["ai"]` and an event
tagged `["AI"]` the code's base pool is empty although the claim's
normalized comparison would retain the event. -/
theorem basePool_norm_counterexample_c1 :
    basePool [ceEvt1] (some ceP1) .personalized = []
      ∧ basePoolSpec [ceEvt1] (some ceP1) .personalized = [ceEvt1] :=
  ⟨rfl, rfl⟩

/-- Witness for C1 at a concrete matching event. -/
theorem basePool_membership_witness_c1 :
    evTie ∈ basePool [evTie] (some ceP1) .personalized :=
  (basePool_membership_c1 [evTie] ceP1 none .all evTie).1.mpr
    ⟨List.mem_cons_self evTie [], Or.inl rfl,
      "ai", by simp [evTie], by simp [ceP1]⟩

/-- C2: `matchesQuery e q` is true iff every whitespace token of the
lower-cased query is a substring of the lower-cased space-joined
concatenation of title, description, organizer, location and tags (absent
fields contributing empty strings); in particular every event matches an
empty or whitespace-only query. -/
theorem matchesQuery_spec_c2 :
    ∀ (e : Event) (q : String),
      (matchesQuery e q = true ↔
        ∀ w ∈ tokenizeL (lower q.data), substrIn w (hayData e) = true)
      ∧ (q.data.all Char.isWhitespace = true → matchesQuery e q = true) := by
  intro e q
  constructor
  · by_cases hw : q.data.all Char.isWhitespace = true
    · rw [matchesQuery, if_pos hw, tokenizeL_lower_ws q hw]
      simp
    · rw [matchesQuery, if_neg hw]
      exact List.all_eq_true
  · intro hw
    rw [matchesQuery, if_pos hw]

/-- Witness for C2: a whitespace-only query matches a concrete event. -/
theorem matchesQuery_witness_c2 : matchesQuery evScn1 "  " = true :=
  (matchesQuery_spec_c2 evScn1 "  ").2 (by decide)

/- ===== findLast facts ===== -/

theorem foldl_findLast_no_match (i : String) :
    ∀ (pool : List Event) (acc : Option Event), (∀ e ∈ pool, e.id ≠ i) →
      pool.foldl (fun a e => if e.id = i then some e else a) acc = acc := by
  intro pool
  induction pool with
  | nil => intro acc _; rfl
  | cons x xs ih =>
    intro acc h
    have hx : x.id ≠ i := h x (List.mem_cons_self x xs)
    show xs.foldl _ (if x.id = i then some x else acc) = acc
    rw [if_neg hx]
    exact ih acc (fun e he => h e (List.mem_cons.mpr (Or.inr he)))

theorem findLast_mem (i : String) :
    ∀ (pool : List Event) (acc : Option Event), (∃ e ∈ pool, e.id = i) →
      ∃ e, pool.foldl (fun a e => if e.id = i then some e else a) acc = some e
        ∧ e ∈ pool ∧ e.id = i := by
  intro pool
  induction pool with
  | nil => intro acc h; obtain ⟨e, he, _⟩ := h; cases he
  | cons x xs ih =>
    intro acc h
    show ∃ e, xs.foldl _ (if x.id = i then some x else acc) = some e ∧ _
    by_cases hxs : ∃ e ∈ xs, e.id = i
    · obtain ⟨e, hfe, hem, hei⟩ := ih (if x.id = i then some x else acc) hxs
      exact ⟨e, hfe, List.mem_cons.mpr (Or.inr hem), hei⟩
    · push_neg at hxs
      have hx : x.id = i := by
        obtain ⟨e, he, hei⟩ := h
        rcases List.mem_cons.mp he with rfl | hmem
        · exact hei
        · exact absurd hei (hxs e hmem)
      rw [if_pos hx]
      rw [foldl_findLast_no_match i xs (some x) hxs]
      exact ⟨x, rfl, List.mem_cons_self x xs, hx⟩

/- ===== further claim theorems ===== -/

/-- C4: the trending list has length at most 3, each entry is a positive
save-count entry whose id belongs to an event of the base pool (stale or
filtered-out ids are silently dropped), entries are sorted descending by
save count, and an empty base pool gives an empty trending list. -/
theorem trending_spec_c4 :
    ∀ (pool : List Event) (saveCounts : List (String × Nat)),
      (trending pool saveCounts).length ≤ 3
      ∧ (∀ p ∈ trending pool saveCounts,
          0 < p.2 ∧ ∃ e, p.1 = some e ∧ e ∈ pool ∧ (e.id, p.2) ∈ saveCounts)
      ∧ (trending pool saveCounts).Pairwise (fun a b => b.2 ≤ a.2)
      ∧ trending [] saveCounts = [] := by
  intro pool counts
  refine ⟨?_, ?_, ?_, rfl⟩
  · unfold trending
    by_cases hp : pool.isEmpty
    · rw [if_pos hp]; simp
    · rw [if_neg hp, List.length_map]
      exact List.length_take_le 3 _
  · intro p hp
    unfold trending at hp
    by_cases he : pool.isEmpty
    · rw [if_pos he] at hp; cases hp
    · rw [if_neg he] at hp
      obtain ⟨q, hq, rfl⟩ := List.mem_map.mp hp
      have hq2 : q ∈ sortLe descCountLe
          (counts.filter
            (fun r => decide (0 < r.2) && pool.any (fun e => decide (e.id = r.1)))) :=
        List.mem_of_mem_take hq
      have hq3 := (sortLe_perm _ _).subset hq2
      obtain ⟨hqc, hqb⟩ := List.mem_filter.mp hq3
      rw [Bool.and_eq_true] at hqb
      obtain ⟨hpos, hany⟩ := hqb
      have hpos2 : 0 < q.2 := of_decide_eq_true hpos
      have hexists : ∃ e ∈ pool, e.id = q.1 := by
        obtain ⟨e, hem, hid⟩ := List.any_eq_true.mp hany
        exact ⟨e, hem, of_decide_eq_true hid⟩
      obtain ⟨e, hfe, hem, hei⟩ := findLast_mem q.1 pool none hexists
      refine ⟨hpos2, e, ?_, hem, ?_⟩
      · show findLast pool q.1 = some e
        exact hfe
      · show (e.id, q.2) ∈ counts
        rw [hei]
        exact (Prod.mk.eta (p := q)) ▸ hqc
  · unfold trending
    by_cases he : pool.isEmpty
    · rw [if_pos he]; exact List.Pairwise.nil
    · rw [if_neg he]
      rw [List.pairwise_map]
      have hs := sortLe_pairwise descCountLe descCountLe_total descCountLe_trans
        (counts.filter
          (fun r => decide (0 < r.2) && pool.any (fun e => decide (e.id = r.1))))
      have ht := List.Pairwise.sublist (List.take_sublist 3 _) hs
      exact ht.imp (fun h => of_decide_eq_true h)

/-- Witness for C4 at a one-event pool with one positive save count. -/
theorem trending_witness_c4 :
    0 < ((some evT4, 2) : Option Event × Nat).2
      ∧ ∃ e, ((some evT4, 2) : Option Event × Nat).1 = some e ∧ e ∈ [evT4]
          ∧ (e.id, ((some evT4, 2) : Option Event × Nat).2) ∈ [("t4", 2)] :=
  (trending_spec_c4 [evT4] [("t4", 2)]).2.1 (some evT4, 2) (by
    have he : trending [evT4] [("t4", 2)] = [(some evT4, 2)] := rfl
    rw [he]
    exact List.mem_cons_self _ _)

/-- C5: with sort = date the visible list is sorted ascending by start-time
key (missing or unparseable start = positive infinity), no event lacking a
start time ever precedes an event that has one, and the sort is stable: the
relative order of the searched sub-list is kept for equal keys. -/
theorem dateSort_spec_c5 :
    ∀ (pool : List Event) (level q : String) (tags savedIds : List String),
      ((filtered pool level .date q tags savedIds).Pairwise
        (fun a b => etLe (dateOrInfinity a.start) (dateOrInfinity b.start) = true))
      ∧ (∀ a b, [a, b].Sublist (filtered pool level .date q tags savedIds) →
          dateOrInfinity a.start = none → dateOrInfinity b.start = none)
      ∧ (∀ a b, [a, b].Sublist (withSearch (withTags (withLevel pool level) tags) q) →
          dateOrInfinity a.start = dateOrInfinity b.start →
          [a, b].Sublist (filtered pool level .date q tags savedIds)) := by
  intro pool level q tags savedIds
  refine ⟨?_, ?_, ?_⟩
  · exact sortLe_pairwise dateLe dateLe_total dateLe_trans _
  · intro a b hs hna
    have hrel := rel_of_pairwise_pair
      (sortLe_pairwise dateLe dateLe_total dateLe_trans
        (withSearch (withTags (withLevel pool level) tags) q)) hs
    unfold dateLe at hrel
    rw [hna] at hrel
    cases hkb : dateOrInfinity b.start with
    | none => rfl
    | some t => rw [hkb] at hrel; simp [etLe] at hrel
  · intro a b hs hkey
    apply sortLe_stable dateLe a b _ hs
    unfold dateLe
    rw [hkey]
    exact etLe_refl _

/-- Witness for C5: stability instance on two unscheduled events. -/
theorem dateSort_witness_c5 :
    [evA5, evB5].Sublist (filtered [evA5, evB5] "all" .date "" [] []) := by
  have hpre : withSearch (withTags (withLevel [evA5, evB5] "all") []) "" = [evA5, evB5] := rfl
  exact (dateSort_spec_c5 [evA5, evB5] "all" "" [] []).2.2 evA5 evB5
    (by rw [hpre]) rfl

/-- C6: with sort = trending, saved events precede unsaved ones, events of
equal saved status are ordered by start time ascending (missing dates
last), the sort is stable for fully equal keys, and in the concrete spec
scenario saving id "2" puts the unscheduled saved event before the
scheduled unsaved one. -/
theorem trendingSort_spec_c6 :
    ∀ (pool : List Event) (level q : String) (tags savedIds : List String),
      (∀ a b, [a, b].Sublist (filtered pool level .trending q tags savedIds) →
          savedIds.contains b.id = true → savedIds.contains a.id = true)
      ∧ (∀ a b, [a, b].Sublist (filtered pool level .trending q tags savedIds) →
          savedIds.contains a.id = savedIds.contains b.id →
          etLe (dateOrInfinity a.start) (dateOrInfinity b.start) = true)
      ∧ (∀ a b, [a, b].Sublist (withSearch (withTags (withLevel pool level) tags) q) →
          savedIds.contains a.id = savedIds.contains b.id →
          dateOrInfinity a.start = dateOrInfinity b.start →
          [a, b].Sublist (filtered pool level .trending q tags savedIds))
      ∧ ((filtered [evScn1, evScn2] "all" .trending "" []
            ((toggleSaved "2" initialStore).savedIds)).map (fun e => e.id)
          = ["2", "1"]) := by
  intro pool level q tags savedIds
  refine ⟨?_, ?_, ?_, rfl⟩
  · intro a b hs hb
    have hrel := rel_of_pairwise_pair
      (sortLe_pairwise (trendLe savedIds) (trendLe_total savedIds)
        (trendLe_trans savedIds)
        (withSearch (withTags (withLevel pool level) tags) q)) hs
    unfold trendLe at hrel
    by_cases he : savedIds.contains a.id = savedIds.contains b.id
    · exact he.trans hb
    · rw [if_pos he] at hrel
      exact hrel
  · intro a b hs he
    have hrel := rel_of_pairwise_pair
      (sortLe_pairwise (trendLe savedIds) (trendLe_total savedIds)
        (trendLe_trans savedIds)
        (withSearch (withTags (withLevel pool level) tags) q)) hs
    unfold trendLe at hrel
    rw [if_neg (fun hne => hne he)] at hrel
    exact hrel
  · intro a b hs hstat hkey
    apply sortLe_stable (trendLe savedIds) a b _ hs
    unfold trendLe
    rw [if_neg (fun hne => hne hstat)]
    unfold dateLe
    rw [hkey]
    exact etLe_refl _

/-- Witness for C6: stability instance on two unsaved unscheduled events. -/
theorem trendingSort_witness_c6 :
    [evA5, evB5].Sublist (filtered [evA5, evB5] "all" .trending "" [] []) := by
  have hpre : withSearch (withTags (withLevel [evA5, evB5] "all") []) "" = [evA5, evB5] := rfl
  exact (trendingSort_spec_c6 [evA5, evB5] "all" "" [] []).2.2.1 evA5 evB5
    (by rw [hpre]) rfl rfl

/- ===== tag-cloud entry facts ===== -/

theorem pair_sublist_map {f : α → β} {a b : β} :
    ∀ {l : List α}, [a, b].Sublist (l.map f) →
      ∃ p1 p2, [p1, p2].Sublist l ∧ a = f p1 ∧ b = f p2 := by
  intro l
  induction l with
  | nil => intro h; cases h
  | cons x xs ih =>
    intro h
    rw [List.map_cons] at h
    cases h with
    | cons _ h2 =>
      obtain ⟨p1, p2, hs, ha, hb⟩ := ih h2
      exact ⟨p1, p2, hs.cons x, ha, hb⟩
    | cons₂ _ h2 =>
      have hb : b ∈ xs.map f := List.singleton_sublist.mp h2
      obtain ⟨p2, hp2, hbf⟩ := List.mem_map.mp hb
      exact ⟨x, p2, List.Sublist.cons₂ x (List.singleton_sublist.mpr hp2), rfl, hbf.symm⟩

theorem not_pair_same_nodup {a : α} :
    ∀ {l : List α}, l.Nodup → ¬ [a, a].Sublist l := by
  intro l
  induction l with
  | nil => intro _ h; cases h
  | cons x xs ih =>
    intro hn h
    rw [List.nodup_cons] at hn
    cases h with
    | cons _ h2 => exact ih hn.2 h2
    | cons₂ _ h2 => exact hn.1 (List.singleton_sublist.mp h2)

theorem canonical_of_key {pool : List Event} {k : String}
    (hk : k ∈ tagCloudSeq pool) :
    ∃ c, ALLOWED_TAGS.find? (fun x => decide (norm x = k)) = some c
      ∧ c ∈ ALLOWED_TAGS ∧ norm c = k := by
  have hfil := (List.mem_filter.mp hk).2
  obtain ⟨m, hm, hmk⟩ := List.any_eq_true.mp hfil
  obtain ⟨x, hx, rfl⟩ := List.mem_map.mp hm
  have hxk : norm x = k := of_decide_eq_true hmk
  cases hfind : ALLOWED_TAGS.find? (fun y => decide (norm y = k)) with
  | none =>
    rw [List.find?_eq_none] at hfind
    exact absurd (decide_eq_true hxk) (hfind x hx)
  | some c =>
    have h0 := List.find?_some hfind
    have hpc : decide (norm c = k) = true := h0
    exact ⟨c, rfl, List.mem_of_find?_eq_some hfind, of_decide_eq_true hpc⟩

theorem tagCloud_entry {pool : List Event} {en : CloudEntry}
    (h : en ∈ tagCloud pool) :
    ∃ p, p ∈ buildCounts (tagCloudSeq pool)
      ∧ en.count = p.2 ∧ en.tag ∈ ALLOWED_TAGS ∧ norm en.tag = p.1 := by
  unfold tagCloud at h
  obtain ⟨p, hp, rfl⟩ := List.mem_map.mp h
  have hp2 : p ∈ sortLe descCountLe (buildCounts (tagCloudSeq pool)) :=
    List.mem_of_mem_take hp
  have hp3 : p ∈ buildCounts (tagCloudSeq pool) := (sortLe_perm _ _).subset hp2
  have hkseq : p.1 ∈ tagCloudSeq pool := buildCounts_key_mem hp3
  obtain ⟨c, hfind, hcmem, hck⟩ := canonical_of_key hkseq
  refine ⟨p, hp3, rfl, ?_, ?_⟩
  · show (ALLOWED_TAGS.find? (fun x => decide (norm x = p.1))).getD p.1 ∈ ALLOWED_TAGS
    rw [hfind]
    exact hcmem
  · show norm ((ALLOWED_TAGS.find? (fun x => decide (norm x = p.1))).getD p.1) = p.1
    rw [hfind]
    exact hck

/-- C3 (amended): the tag cloud has length at most 5, every entry is an
allow-listed tag in its canonical spelling, each entry's count is the
number of tag occurrences of the base pool normalizing to it, entries are
sorted descending by count, and entries of equal count appear in the order
their tags first occur among the base pool's allow-listed tag occurrences
(JS object insertion order) — not in the allow-list's declared order. -/
theorem tagCloud_spec_c3 :
    ∀ pool : List Event,
      (tagCloud pool).length ≤ 5
      ∧ (∀ en ∈ tagCloud pool, en.tag ∈ ALLOWED_TAGS)
      ∧ (∀ en ∈ tagCloud pool,
          en.count = ((pool.map (fun e => e.tags)).flatten.map norm).count (norm en.tag))
      ∧ (tagCloud pool).Pairwise (fun a b => b.count ≤ a.count)
      ∧ (∀ a b : CloudEntry, [a, b].Sublist (tagCloud pool) → a.count = b.count →
          firstIdx (norm a.tag) (tagCloudSeq pool)
            < firstIdx (norm b.tag) (tagCloudSeq pool)) := by
  intro pool
  refine ⟨?_, ?_, ?_, ?_, ?_⟩
  · unfold tagCloud
    rw [List.length_map]
    exact List.length_take_le _ _
  · intro en hen
    obtain ⟨p, _, _, hmem, _⟩ := tagCloud_entry hen
    exact hmem
  · intro en hen
    obtain ⟨p, hp3, hcount, _, hnorm⟩ := tagCloud_entry hen
    rw [hcount, hnorm, buildCounts_count hp3]
    have hpred := (List.mem_filter.mp (buildCounts_key_mem hp3)).2
    exact List.count_filter hpred
  · unfold tagCloud
    rw [List.pairwise_map]
    have hs := sortLe_pairwise descCountLe descCountLe_total descCountLe_trans
      (buildCounts (tagCloudSeq pool))
    have ht := List.Pairwise.sublist (List.take_sublist TAG_CLOUD_LIMIT _) hs
    exact ht.imp (fun h => of_decide_eq_true h)
  · intro a b hs hcount
    unfold tagCloud at hs
    obtain ⟨p1, p2, hsl, ha, hb⟩ := pair_sublist_map hs
    have hsl2 : [p1, p2].Sublist (sortLe descCountLe (buildCounts (tagCloudSeq pool))) :=
      hsl.trans (List.take_sublist TAG_CLOUD_LIMIT _)
    have hp1mem : p1 ∈ buildCounts (tagCloudSeq pool) :=
      (sortLe_perm _ _).subset (hsl2.subset (by simp))
    have hp2mem : p2 ∈ buildCounts (tagCloudSeq pool) :=
      (sortLe_perm _ _).subset (hsl2.subset (by simp))
    have hk1 : p1.1 ∈ tagCloudSeq pool := buildCounts_key_mem hp1mem
    have hk2 : p2.1 ∈ tagCloudSeq pool := buildCounts_key_mem hp2mem
    obtain ⟨c1, hf1, _, hc1⟩ := canonical_of_key hk1
    obtain ⟨c2, hf2, _, hc2⟩ := canonical_of_key hk2
    have hna : norm a.tag = p1.1 := by
      rw [ha]
      show norm ((ALLOWED_TAGS.find? (fun x => decide (norm x = p1.1))).getD p1.1) = p1.1
      rw [hf1]
      exact hc1
    have hnb : norm b.tag = p2.1 := by
      rw [hb]
      show norm ((ALLOWED_TAGS.find? (fun x => decide (norm x = p2.1))).getD p2.1) = p2.1
      rw [hf2]
      exact hc2
    have hpq : p1.2 = p2.2 := by
      rw [ha, hb] at hcount
      exact hcount
    have hnodupbc : (buildCounts (tagCloudSeq pool)).Nodup :=
      List.Nodup.of_map Prod.fst (buildCounts_nodup_keys (tagCloudSeq pool))
    have hnodups : (sortLe descCountLe (buildCounts (tagCloudSeq pool))).Nodup :=
      ((sortLe_perm _ _).symm).nodup hnodupbc
    have hne : p1 ≠ p2 := by
      intro he
      subst he
      exact not_pair_same_nodup hnodups hsl2
    have horder : [p1, p2].Sublist (buildCounts (tagCloudSeq pool)) := by
      rcases two_mem_sublist hp1mem hp2mem hne with h | h
      · exact h
      · exfalso
        have hle : descCountLe p2 p1 = true := by
          unfold descCountLe
          rw [hpq]
          simp
        have hstab := sortLe_stable descCountLe p2 p1 _ h hle
        exact hne (pair_sublist_nodup hsl2 hstab hnodups)
    have hidx := buildCounts_pair_firstIdx horder
    rw [hna, hnb]
    exact hidx

/-- Counterexample for C3 as stated: one event tagged `["ai", "hackathon"]`
gives two entries of equal count ordered `ai` before `hackathon`, while the
allow-list declares `hackathon` (position 0) before `ai` (position 4). -/
theorem tagCloud_tiebreak_counterexample_c3 :
    tagCloud [evTie] = [⟨"ai", 1⟩, ⟨"hackathon", 1⟩]
      ∧ firstIdx "hackathon" ALLOWED_TAGS < firstIdx "ai" ALLOWED_TAGS :=
  ⟨rfl, by decide⟩

/-- Witness for C3: the equal-count entries of the `evTie` cloud are
ordered by first occurrence in the pool's tag sequence. -/
theorem tagCloud_witness_c3 :
    firstIdx (norm (CloudEntry.mk "ai" 1).tag) (tagCloudSeq [evTie])
      < firstIdx (norm (CloudEntry.mk "hackathon" 1).tag) (tagCloudSeq [evTie]) :=
  (tagCloud_spec_c3 [evTie]).2.2.2.2 ⟨"ai", 1⟩ ⟨"hackathon", 1⟩
    (by
      have he : tagCloud [evTie] = [⟨"ai", 1⟩, ⟨"hackathon", 1⟩] := rfl
      rw [he])
    rfl
